import Mathlib

/-!
Verification development for the Content-Scrape Discord Twitter-link bot
(`src/bot.js`).  The ingestion pipeline is embedded shallowly:

* `extractTwitterLinks` — the pure link extractor (bot.js lines 85–119),
  with the three JavaScript regexes realised as explicit scanners;
* `expandShortUrl` — the shortener resolver (bot.js 121–135), with the
  network modelled as an oracle `String → Option String`;
* `testModeUpsert` / `mongoUpsert` — the degraded-mode and persistent
  storage writes (bot.js 137–177), the latter including the unique
  indexes created in `connectToMongoDB` (bot.js 72–76);
* `scrapeChannel` — the per-channel historical traversal loop
  (bot.js 268–314) over a paged message source;
* `scrapeHistorical` / `handleMessageCreate` — the control flow gating
  the live monitor behind historical scraping (bot.js 226–236, 419–429).

Dates (`new Date()`, `message.createdAt`) are modelled as integers:
only equality/order on them matters to the code under study.
-/

namespace ContentScrape

/-! ## Character classes (JavaScript regex classes, ASCII fragment) -/

/-- JavaScript `\s` (whitespace), restricted to the ASCII characters that can
occur in the message texts considered here. -/
def jsSpace (c : Char) : Bool :=
  c = ' ' || c = '\t' || c = '\n' || c = '\r' || c = '\x0b' || c = '\x0c'

/-- JavaScript `\w`: `[A-Za-z0-9_]`. -/
def isWordChar (c : Char) : Bool :=
  (('a' ≤ c && c ≤ 'z') || ('A' ≤ c && c ≤ 'Z') || ('0' ≤ c && c ≤ '9') || c = '_')

/-- JavaScript `\d`: `[0-9]`. -/
def isDigitChar (c : Char) : Bool :=
  ('0' ≤ c && c ≤ '9')

/-- The trailing-punctuation class `[.,;!?]` stripped by
`link.replace(/[.,;!?]+$/, '')` (bot.js 94, 113). -/
def isTrailPunct (c : Char) : Bool :=
  c = '.' || c = ',' || c = ';' || c = '!' || c = '?'

/-! ## Literal eaters

`eatCS lit cs` consumes the exact literal `lit` at the head of `cs`
(case-sensitive); `eatCI` is the case-insensitive variant used by the
`/gi` regexes.  Both return the consumed characters (in their original
case) together with the rest of the input. -/

def eatCS : List Char → List Char → Option (List Char × List Char)
  | [], cs => some ([], cs)
  | _ :: _, [] => none
  | l :: ls, c :: cs =>
    if c = l then
      match eatCS ls cs with
      | some (m, r) => some (c :: m, r)
      | none => none
    else none

def eatCI : List Char → List Char → Option (List Char × List Char)
  | [], cs => some ([], cs)
  | _ :: _, [] => none
  | l :: ls, c :: cs =>
    if c.toLower = l.toLower then
      match eatCI ls cs with
      | some (m, r) => some (c :: m, r)
      | none => none
    else none

/-- An optional literal (`X?` in a regex): consume it if present, else
consume nothing.  (Greedy without backtracking; for the literals used
below this agrees with the JavaScript engine, because the character
after each optional literal can never also start the continuation.) -/
def eatOptCS (lit cs : List Char) : List Char × List Char :=
  match eatCS lit cs with
  | some x => x
  | none => ([], cs)

def eatOptCI (lit cs : List Char) : List Char × List Char :=
  match eatCI lit cs with
  | some x => x
  | none => ([], cs)

/-! ## The three regexes of `extractTwitterLinks` (bot.js 89, 97, 109) -/

/-- Attempt, at the current position, the match of
`/https?:\/\/(www\.)?(twitter\.com|x\.com)\/[^\s]+/gi` (bot.js 89).
The final `[^\s]+` is greedy and nothing follows it, so it takes the
maximal run of non-whitespace characters. -/
def matchTwitterAt (cs : List Char) : Option (List Char × List Char) :=
  match eatCI ("http".toList) cs with
  | none => none
  | some (m1, r1) =>
    let s2 := eatOptCI ("s".toList) r1
    match eatCI ("://".toList) s2.2 with
    | none => none
    | some (m3, r3) =>
      let s4 := eatOptCI ("www.".toList) r3
      match (match eatCI ("twitter.com".toList) s4.2 with
             | some x => some x
             | none => eatCI ("x.com".toList) s4.2) with
      | none => none
      | some (m5, r5) =>
        match eatCI ("/".toList) r5 with
        | none => none
        | some (m6, r6) =>
          let tail := r6.takeWhile (fun c => !(jsSpace c))
          if tail.isEmpty then none
          else some (m1 ++ s2.1 ++ m3 ++ s4.1 ++ m5 ++ m6 ++ tail, r6.drop tail.length)

/-- Attempt, at the current position, the match of
`/https?:\/\/t\.co\/\w+/gi` (bot.js 109). -/
def matchShortAt (cs : List Char) : Option (List Char × List Char) :=
  match eatCI ("http".toList) cs with
  | none => none
  | some (m1, r1) =>
    let s2 := eatOptCI ("s".toList) r1
    match eatCI ("://t.co/".toList) s2.2 with
    | none => none
    | some (m3, r3) =>
      let tail := r3.takeWhile isWordChar
      if tail.isEmpty then none
      else some (m1 ++ s2.1 ++ m3 ++ tail, r3.drop tail.length)

/-- The scheme part `https?:\/\/` of the case-sensitive status regex
(bot.js 97). -/
def matchSchemeCS (cs : List Char) : Option (List Char × List Char) :=
  match eatCS ("http".toList) cs with
  | none => none
  | some (m1, r1) =>
    let s2 := eatOptCS ("s".toList) r1
    match eatCS ("://".toList) s2.2 with
    | none => none
    | some (m3, r3) => some (m1 ++ s2.1 ++ m3, r3)

/-- The host part `(www\.)?(twitter\.com|x\.com)` of the status regex. -/
def matchHostCS (cs : List Char) : Option (List Char × List Char) :=
  let s4 := eatOptCS ("www.".toList) cs
  match (match eatCS ("twitter.com".toList) s4.2 with
         | some x => some x
         | none => eatCS ("x.com".toList) s4.2) with
  | none => none
  | some (m5, r5) => some (s4.1 ++ m5, r5)

/-- Attempt, at the current position, the match of the (case-sensitive,
unflagged) status regex
`/(https?:\/\/(www\.)?(twitter\.com|x\.com)\/\w+\/status\/\d+)/`
(bot.js 97).  `\w+` and `\d+` are greedy; since `/` is not a word
character and the pattern ends after `\d+`, greediness without
backtracking agrees with the JavaScript engine. -/
def matchStatusAt (cs : List Char) : Option (List Char × List Char) :=
  match matchSchemeCS cs with
  | none => none
  | some (ms, r1) =>
    match matchHostCS r1 with
    | none => none
    | some (mo, r2) =>
      match eatCS ("/".toList) r2 with
      | none => none
      | some (m6, r3) =>
        if (r3.takeWhile isWordChar).isEmpty then none
        else
          match eatCS ("/status/".toList) (r3.drop (r3.takeWhile isWordChar).length) with
          | none => none
          | some (m8, r5) =>
            if (r5.takeWhile isDigitChar).isEmpty then none
            else some (ms ++ mo ++ m6 ++ r3.takeWhile isWordChar ++ m8
                         ++ r5.takeWhile isDigitChar,
                       r5.drop (r5.takeWhile isDigitChar).length)

/-- Global scan (`String.prototype.match` with the `g` flag): collect all
non-overlapping matches left to right; where no match starts, advance one
character.  (A zero-length or non-consuming match also advances one
character, as the JavaScript engine does; the matchers above always
consume at least one character, so that branch is never taken.) -/
def scanAllGo (f : List Char → Option (List Char × List Char)) :
    Nat → List Char → List (List Char)
  | 0, _ => []
  | _ + 1, [] => []
  | fuel + 1, c :: rest =>
    match f (c :: rest) with
    | some (m, r) =>
      if r.length ≤ rest.length then m :: scanAllGo f fuel r else m :: scanAllGo f fuel rest
    | none => scanAllGo f fuel rest

def scanAll (f : List Char → Option (List Char × List Char)) (cs : List Char) :
    List (List Char) :=
  scanAllGo f cs.length cs

/-- First-match search (`String.prototype.match` without the `g` flag):
the leftmost position admitting a match wins; the returned value is the
first capture group, which for the status regex is the whole match. -/
def searchStatus : List Char → Option (List Char)
  | [] => none
  | c :: cs =>
    match matchStatusAt (c :: cs) with
    | some (m, _) => some m
    | none => searchStatus cs

/-- `link.replace(/[.,;!?]+$/, '')`: strip the maximal trailing run of
`[.,;!?]` (bot.js 94, 113). -/
def cleanTrailing (cs : List Char) : List Char :=
  (cs.reverse.dropWhile isTrailPunct).reverse

/-- Substring test, as JavaScript's (case-sensitive) `String.prototype.includes`. -/
def containsChars (needle : List Char) : List Char → Bool
  | [] => (eatCS needle []).isSome
  | c :: cs => (eatCS needle (c :: cs)).isSome || containsChars needle cs

def containsStr (needle s : String) : Bool :=
  containsChars needle.toList s.toList

/-- `Set.prototype.add` followed at the end by `Array.from`: JavaScript
sets preserve insertion order, so the collection is a list with
member-checked append. -/
def addUnique (l : List String) (s : String) : List String :=
  if s ∈ l then l else l ++ [s]

/-- The body of the `allMatches.forEach` callback (bot.js 93–105):
clean the match, then either normalise it through the status regex
(dropping it when the status regex fails) or keep the cleaned URL. -/
def processUrlMatch (acc : List String) (link : List Char) : List String :=
  let cleanUrl := cleanTrailing link
  if containsChars ("/status/".toList) cleanUrl then
    match searchStatus cleanUrl with
    | some u => addUnique acc (String.mk u)
    | none => acc
  else addUnique acc (String.mk cleanUrl)

/-- `extractTwitterLinks` (bot.js 85–119): scan for full twitter/x URLs
and process each; then scan for `t.co` shortener URLs and add them
cleaned; return the insertion-ordered deduplicated collection. -/
def extractTwitterLinks (text : String) : List String :=
  let step1 := (scanAll matchTwitterAt text.toList).foldl processUrlMatch []
  (scanAll matchShortAt text.toList).foldl
    (fun acc link => addUnique acc (String.mk (cleanTrailing link))) step1

/-! ## Data model -/

/-- A Discord message as delivered by the message source (the fields the
pipeline reads; bot.js 203–217, 287).  `id` is the snowflake identifier,
numeric and increasing with creation time; `createdAt` is the creation
timestamp.  `authorDisplayName` is `none` when the platform supplies no
display name (`message.author.displayName` undefined). -/
structure Message where
  id : Nat
  content : String
  channelId : String
  channelName : String
  guildId : Option String
  guildName : Option String
  authorId : String
  authorUsername : String
  authorDisplayName : Option String
  authorIsBot : Bool
  createdAt : Int
deriving DecidableEq, Repr

/-- The stored link record (bot.js 203–217 plus the Mongo-managed
`createdAt`).  In the JavaScript object `linkData` there is no
`createdAt` property; `createdAt = none` models its absence. -/
structure LinkData where
  url : String
  originalUrl : String
  messageId : Nat
  channelId : String
  channelName : String
  guildId : Option String
  guildName : Option String
  authorId : String
  authorUsername : String
  authorDisplayName : String
  messageContent : String
  messageTimestamp : Int
  foundAt : Int
  createdAt : Option Int
deriving DecidableEq, Repr

/-- The `linkData` object literal built in `processMessage`
(bot.js 203–217): `authorDisplayName` is
`message.author.displayName || message.author.username`,
`guildId`/`guildName` are `message.guild?.id || null` etc.,
`foundAt` is `new Date()` at build time, and no `createdAt` is set. -/
def buildLinkData (msg : Message) (link expandedUrl : String) (now : Int) : LinkData :=
  { url := expandedUrl
    originalUrl := link
    messageId := msg.id
    channelId := msg.channelId
    channelName := msg.channelName
    guildId := msg.guildId
    guildName := msg.guildName
    authorId := msg.authorId
    authorUsername := msg.authorUsername
    authorDisplayName := msg.authorDisplayName.getD msg.authorUsername
    messageContent := msg.content
    messageTimestamp := msg.createdAt
    foundAt := now
    createdAt := none }

/-! ## Link resolver (bot.js 121–135) -/

/-- `expandShortUrl` (bot.js 121–135).  The network is an oracle
`net : String → Option String`: `some final` models a completed HEAD
request whose final `responseUrl` is `final`; `none` models any failure
(timeout, DNS, redirect cap) or a missing `responseUrl`, in which case
the original URL is returned (`responseUrl || url`, and the `catch`
branch).  The second component records whether a network request was
issued.  Note the guard is the substring test `url.includes('t.co')`. -/
def expandShortUrl (net : String → Option String) (url : String) : String × Bool :=
  if containsStr "t.co" url then
    match net url with
    | some final => (final, true)
    | none => (url, true)
  else (url, false)

/-- Whether a URL is a `t.co` shortener link, i.e. a full match of the
shortener pattern `https?:\/\/t\.co\/\w+` (bot.js 109, spec §4.2):
the pattern matches at position 0 and consumes the whole string. -/
def isTcoShortenerLink (url : String) : Bool :=
  match matchShortAt url.toList with
  | some (_, r) => r.isEmpty
  | none => false

/-! ## Storage (bot.js 72–76, 137–177) -/

/-- The `(messageId, url)` composite key used by `saveLinkToDatabase`'s
filter and by the test-mode `findIndex` (bot.js 139–141, 160–161). -/
def sameKey (a b : LinkData) : Bool :=
  a.messageId = b.messageId && a.url = b.url

/-- The degraded-mode (TEST_MODE) write (bot.js 138–157): look up the
`(messageId, url)` key in `testModeLinks`; push the record only when it
is absent; when it is present, do nothing. -/
def testModeUpsert (links : List LinkData) (r : LinkData) : List LinkData :=
  if links.any (fun l => sameKey l r) then links else links ++ [r]

/-- The index specifications created by `connectToMongoDB`
(bot.js 73–76): field names with their `unique` option, in creation
order. -/
def indexSpecs : List (List String × Bool) :=
  [(["url"], true), (["createdAt"], false), (["messageTimestamp"], false),
   (["messageId"], true)]

/-- The persistent write: `collection.updateOne(filter, update, {upsert:
true})` (bot.js 160–167) against a collection carrying the unique
indexes of `indexSpecs`.  If a document matches the composite filter,
`$set: linkData` overwrites every `linkData` field and `$setOnInsert`
leaves `createdAt` untouched.  Otherwise an insert is attempted with
`createdAt = now` (`$setOnInsert: { createdAt: new Date() }`); the
insert violates a unique index when an existing document already has
the same `url` or the same `messageId`, in which case `updateOne`
throws a duplicate-key error, `saveLinkToDatabase` catches it
(bot.js 174–176) and the collection is unchanged. -/
def mongoUpsert (docs : List LinkData) (r : LinkData) (now : Int) : List LinkData :=
  if docs.any (fun d => sameKey d r) then
    docs.map (fun d => if sameKey d r then { r with createdAt := d.createdAt } else d)
  else if docs.any (fun d => d.url = r.url) || docs.any (fun d => d.messageId = r.messageId) then
    docs
  else
    docs ++ [{ r with createdAt := some now }]

/-- A sequence of degraded-mode writes starting from a store. -/
def testModeFold (links : List LinkData) (rs : List LinkData) : List LinkData :=
  rs.foldl testModeUpsert links

/-- A sequence of persistent writes; each record is paired with the
wall-clock instant of its save (`new Date()` inside `updateOne`). -/
def mongoFold (docs : List LinkData) (rs : List (LinkData × Int)) : List LinkData :=
  rs.foldl (fun acc p => mongoUpsert acc p.1 p.2) docs

/-- Forget the Mongo-managed `createdAt` field, for comparing the two
stores on the fields the application writes. -/
def stripCreated (docs : List LinkData) : List LinkData :=
  docs.map (fun d => { d with createdAt := none })

/-! ## Historical scraper: per-channel traversal (bot.js 254–334) -/

/-- Modelled from the spec: the message source's paged historical fetch
(`channel.messages.fetch({ limit, before })`, bot.js 270–275; spec §6
`fetchBefore(channelId, cursor, limit)`), an external collaborator not
in this repository.  `msgs` is the channel's full history newest-first;
the page is the first `limit` messages strictly older than the cursor
(all messages when the cursor is unset). -/
def fetchPage (msgs : List Message) (cursor : Option Nat) (limit : Nat) : List Message :=
  (match cursor with
   | none => msgs
   | some c => msgs.filter (fun m => m.id < c)).take limit

/-- The `for (const message of messages.values())` loop over one page
(bot.js 286–308): process messages in page order until one with
`message.createdAt < fromDate` is hit, in which case stop without
processing it (`hasMoreMessages = false; break`).  Returns the processed
messages of the page and the resulting `hasMoreMessages` flag. -/
def processPage (cutoff : Int) : List Message → List Message × Bool
  | [] => ([], true)
  | m :: rest =>
    if m.createdAt < cutoff then ([], false)
    else
      let p := processPage cutoff rest
      (m :: p.1, p.2)

/-- The `while (hasMoreMessages)` loop for one channel (bot.js 268–334),
returning the list of messages handed to `processMessage`, in
processing order.  `cursor` is `lastMessageId`, advanced to the last
processed message of each page; an empty page, a page whose in-range
count is zero, or a boundary hit ends the channel.  `fuel` bounds the
number of iterations; any `fuel ≥ msgs.length + 1` is enough, because
every continuing iteration processes at least one message. -/
def scrapeGo (msgs : List Message) (cutoff : Int) (batch : Nat) :
    Nat → Option Nat → List Message
  | 0, _ => []
  | fuel + 1, cursor =>
    let page := fetchPage msgs cursor batch
    if page.isEmpty then []
    else
      let p := processPage cutoff page
      if p.2 = false then p.1
      else if p.1.isEmpty then p.1
      else
        match p.1.getLast? with
        | some last => p.1 ++ scrapeGo msgs cutoff batch fuel (some last.id)
        | none => p.1

/-- One channel's historical traversal from the newest message
(`lastMessageId = null`, bot.js 263). -/
def scrapeChannel (msgs : List Message) (cutoff : Int) (batch fuel : Nat) : List Message :=
  scrapeGo msgs cutoff batch fuel none

/-! ## Configuration, bot state and live-monitor gating
(bot.js 14–19, 30–53, 226–247, 343–344, 419–429) -/

/-- The configuration keys deciding the claims under study. -/
structure Config where
  enableHistoricalScraping : Bool
  scrapeFromDate : Option String
  channelId1 : Option String
  channelId2 : Option String
deriving DecidableEq, Repr

/-- `[CHANNEL_ID_1, CHANNEL_ID_2].filter(Boolean)` (bot.js 186, 242). -/
def channelList (cfg : Config) : List String :=
  ([cfg.channelId1, cfg.channelId2].filterMap id)

/-- `parseScrapingDate` (bot.js 37–53): `null` for a missing string;
otherwise `new Date(dateString)`, yielding `null` (after the caught
throw) when the host date parser rejects the string.  The host parser
is the external `parse` oracle: `none` models an invalid date
(`isNaN(date.getTime())`). -/
def parseScrapingDate (parse : String → Option Int) : Option String → Option Int
  | none => none
  | some s => parse s

/-- The bot's mutable fields touched by the gating logic
(bot.js 32–34). -/
structure BotState where
  historicalScrapingComplete : Bool
  scrapingInProgress : Bool
  testModeLinks : List LinkData
deriving DecidableEq, Repr

/-- The constructor's initial state (bot.js 32–34). -/
def initialState : BotState :=
  { historicalScrapingComplete := false, scrapingInProgress := false, testModeLinks := [] }

/-- The state-level control flow of `scrapeHistoricalMessages`
(bot.js 226–353).  The early returns: scraping disabled (227–230),
invalid or missing cutoff (232–236, before `scrapingInProgress` is
set), no configured channels (242–247, resetting `scrapingInProgress`).
On the full path the per-channel work is `procChannel` (the loop of
bot.js 254–341, whose effect on the state is saving links in test
mode), after which `scrapingInProgress := false` and
`historicalScrapingComplete := true` (343–344).  Note that the early
returns leave `historicalScrapingComplete` untouched. -/
def scrapeHistorical (parse : String → Option Int) (cfg : Config)
    (procChannel : BotState → String → Int → BotState) (st : BotState) : BotState :=
  if cfg.enableHistoricalScraping = false then st
  else
    match parseScrapingDate parse cfg.scrapeFromDate with
    | none => st
    | some fromDate =>
      let st1 := { st with scrapingInProgress := true }
      if (channelList cfg).isEmpty then { st1 with scrapingInProgress := false }
      else
        let st2 := (channelList cfg).foldl (fun s ch => procChannel s ch fromDate) st1
        { st2 with scrapingInProgress := false, historicalScrapingComplete := true }

/-- The `messageCreate` listener (bot.js 419–429): the message is handed
to `processMessage` only when
`!ENABLE_HISTORICAL_SCRAPING || this.historicalScrapingComplete`.
`procMsg` is the per-message pipeline; the Boolean reports whether it
was invoked. -/
def handleMessageCreate (cfg : Config) (procMsg : BotState → Message → BotState)
    (st : BotState) (m : Message) : BotState × Bool :=
  if cfg.enableHistoricalScraping = false || st.historicalScrapingComplete then
    (procMsg st m, true)
  else (st, false)

/-! ## Canonical status shape (spec §4.4 step 3) -/

/-- The shape `scheme://host/username/status/id` from the spec's
normalisation step: scheme `http`/`https`, host `twitter.com`/`x.com`
with optional `www.`, a non-empty word-character username, the literal
`/status/`, a non-empty numeric id, and nothing after the id. -/
def canonicalStatusShape (cs : List Char) : Bool :=
  ["http://", "https://"].any fun sch =>
    ["twitter.com", "x.com", "www.twitter.com", "www.x.com"].any fun host =>
      match eatCS (sch.toList ++ host.toList ++ ['/']) cs with
      | none => false
      | some (_, r1) =>
        if (r1.takeWhile isWordChar).isEmpty then false
        else
          match eatCS ("/status/".toList) (r1.drop (r1.takeWhile isWordChar).length) with
          | none => false
          | some (_, r2) =>
            !(r2.takeWhile isDigitChar).isEmpty
              && (r2.drop (r2.takeWhile isDigitChar).length).isEmpty

/-! ## Concrete instances used by witnesses and counterexamples -/

/-- A message carrying two distinct status links (so `processMessage`
builds two records with the same `messageId`, bot.js 199–219). -/
def msgA : Message :=
  { id := 1, content := "hello https://x.com/a/status/1 and https://x.com/b/status/2",
    channelId := "c1", channelName := "general", guildId := some "g1",
    guildName := some "G", authorId := "u1", authorUsername := "alice",
    authorDisplayName := none, authorIsBot := false, createdAt := 100 }

def recA1 : LinkData := buildLinkData msgA "https://x.com/a/status/1" "https://x.com/a/status/1" 200
def recA2 : LinkData := buildLinkData msgA "https://x.com/b/status/2" "https://x.com/b/status/2" 201

/-- A minimal message for traversal instances. -/
def mh (i : Nat) (t : Int) : Message :=
  { id := i, content := "", channelId := "c1", channelName := "general",
    guildId := none, guildName := none, authorId := "u", authorUsername := "u",
    authorDisplayName := none, authorIsBot := false, createdAt := t }

/-- A record and its re-save with a later `foundAt` (same
`(messageId, url)` key). -/
def recB : LinkData := buildLinkData (mh 5 50) "https://x.com/u/status/9" "https://x.com/u/status/9" 7
def recB2 : LinkData := { recB with foundAt := 9 }

/-- Two records with distinct keys for the store-comparison witness. -/
def recD1 : LinkData := buildLinkData (mh 11 50) "https://x.com/d/status/1" "https://x.com/d/status/1" 60
def recD2 : LinkData := buildLinkData (mh 12 55) "https://x.com/d/status/2" "https://x.com/d/status/2" 61

/-- A configuration with historical scraping enabled and a malformed
cutoff-date string. -/
def cfgBadDate : Config :=
  { enableHistoricalScraping := true, scrapeFromDate := some "not-a-date",
    channelId1 := some "c1", channelId2 := none }

/-- A valid configuration for witnesses. -/
def cfgOk : Config :=
  { enableHistoricalScraping := true, scrapeFromDate := some "2024-01-01",
    channelId1 := some "c1", channelId2 := none }

/-- A configuration with historical scraping disabled. -/
def cfgOff : Config :=
  { enableHistoricalScraping := false, scrapeFromDate := none,
    channelId1 := some "c1", channelId2 := none }

/-- A host date parser rejecting every string (`new Date(s)` invalid). -/
def parseFail : String → Option Int := fun _ => none

/-- A per-message pipeline action that records nothing (its internals do
not matter to the gating claims). -/
def procMsgId : BotState → Message → BotState := fun s _ => s

/-- A per-channel scraping action that records nothing. -/
def procChannelId : BotState → String → Int → BotState := fun s _ _ => s

end ContentScrape


namespace ContentScrape

/-! ## Helper lemmas -/

/-- A record whose `createdAt` is already `none` is unchanged by
forgetting `createdAt`. -/
theorem setCreatedNone_eq_self {d : LinkData} (h : d.createdAt = none) :
    { d with createdAt := none } = d := by
  cases d
  simp_all

/-- `sameKey` is symmetric. -/
theorem sameKey_symm {a b : LinkData} (h : sameKey a b = true) : sameKey b a = true := by
  simp only [sameKey, Bool.and_eq_true, decide_eq_true_eq] at h ⊢
  exact ⟨h.1.symm, h.2.symm⟩

/-- Every record in a degraded-mode store built by upserts from
`createdAt`-free records is itself `createdAt`-free. -/
theorem testModeFold_createdAt_none :
    ∀ (rs acc : List LinkData), (∀ x ∈ acc, x.createdAt = none) →
      (∀ x ∈ rs, x.createdAt = none) →
      ∀ x ∈ testModeFold acc rs, x.createdAt = none := by
  intro rs
  induction rs with
  | nil => intro acc hacc _ x hx; exact hacc x hx
  | cons r rest ih =>
    intro acc hacc hrs x hx
    simp only [testModeFold, List.foldl_cons] at hx
    refine ih (testModeUpsert acc r) ?_ (fun y hy => hrs y (List.mem_cons_of_mem _ hy)) x hx
    intro y hy
    unfold testModeUpsert at hy
    by_cases hk : acc.any (fun l => sameKey l r) = true
    · rw [if_pos hk] at hy; exact hacc y hy
    · rw [if_neg hk] at hy
      rcases List.mem_append.mp hy with hmem | hmem
      · exact hacc y hmem
      · rw [List.mem_singleton.mp hmem]
        exact hrs r (List.mem_cons_self _ _)

/-! ## C1 -/

/-- C1: the claim asserts that the storage layer enforces uniqueness on
the composite `(messageId, url)` key, so that a message with two
distinct links yields two stored records and no single-field constraint
rejects the second.  The code instead creates unique indexes on `url`
alone and on `messageId` alone (bot.js 73, 76) and no composite index;
evaluated on message `msgA` carrying two distinct links, the second
record's insert is rejected by the `messageId` unique index and only
one record is stored. -/
theorem mongo_single_field_index_rejects_second_link :
    mongoUpsert (mongoUpsert [] recA1 300) recA2 301 = [{ recA1 with createdAt := some 300 }]
    ∧ recA1.messageId = recA2.messageId
    ∧ recA1.url ≠ recA2.url
    ∧ (["messageId"], true) ∈ indexSpecs
    ∧ (["url"], true) ∈ indexSpecs
    ∧ (["messageId", "url"], true) ∉ indexSpecs := by
  refine ⟨by decide, by decide, by decide, by decide, by decide, by decide⟩

/-! ## C2 -/

/-- C2 counterexample: in degraded mode, upserting a record and then the
same-key record with a later `foundAt` leaves the first record in the
store — the stored `foundAt` is the first call's (7), not the second
call's (9), contradicting the claim's "in both persistent and degraded
modes". -/
theorem testmode_keeps_first_foundAt :
    testModeUpsert (testModeUpsert [] recB) recB2 = [recB]
    ∧ sameKey recB2 recB = true
    ∧ recB.foundAt = 7 ∧ recB2.foundAt = 9
    ∧ (testModeUpsert (testModeUpsert [] recB) recB2).map LinkData.foundAt ≠ [recB2.foundAt] := by
  refine ⟨by decide, by decide, by decide, by decide, by decide⟩

/-- C2 (amended): upserting twice on one `(messageId, url)` key yields
exactly one stored record in both modes; in persistent mode the record
carries the second call's fields with `createdAt` fixed at the first
insert's timestamp, while in degraded mode the store is left unchanged
by the second call, so the record keeps the first call's fields and has
no `createdAt`. -/
theorem upsert_twice_one_record :
    ∀ (r r2 : LinkData) (t1 t2 : Int), sameKey r2 r = true →
      mongoUpsert (mongoUpsert [] r t1) r2 t2 = [{ r2 with createdAt := some t1 }]
      ∧ testModeUpsert (testModeUpsert [] r) r2 = [r] := by
  intro r r2 t1 t2 hk
  have hk' := sameKey_symm hk
  constructor
  · have h1 : mongoUpsert [] r t1 = [{ r with createdAt := some t1 }] := by
      simp [mongoUpsert]
    rw [h1]
    have hkey : sameKey { r with createdAt := some t1 } r2 = true := by
      simp only [sameKey, Bool.and_eq_true, decide_eq_true_eq] at hk' ⊢
      exact hk'
    simp [mongoUpsert, hkey]
  · have h2 : testModeUpsert [] r = [r] := by simp [testModeUpsert]
    rw [h2]
    simp [testModeUpsert, hk']

/-- Witness for `upsert_twice_one_record` at the concrete records
`recB`, `recB2`. -/
theorem upsert_twice_one_record_witness :
    mongoUpsert (mongoUpsert [] recB 3) recB2 4 = [{ recB2 with createdAt := some 3 }]
    ∧ testModeUpsert (testModeUpsert [] recB) recB2 = [recB] :=
  upsert_twice_one_record recB recB2 3 4 (by decide)

/-! ## C3 -/

/-- C3: the claim asserts that with historical scraping enabled and a
malformed cutoff date, scraping is skipped and the live monitor
subsequently processes events.  The code does skip without crashing
(`scrapeHistoricalMessages` returns early, state unchanged), but the
early return never sets `historicalScrapingComplete` (only bot.js 344
does), so the `messageCreate` gate (bot.js 421) remains closed and no
incoming message is ever processed: the live monitor is permanently
gated, against the claim and spec §7's "non-fatal, disables historical
scraping". -/
theorem malformed_cutoff_gates_live_monitor :
    scrapeHistorical parseFail cfgBadDate procChannelId initialState = initialState
    ∧ (scrapeHistorical parseFail cfgBadDate procChannelId initialState).historicalScrapingComplete
        = false
    ∧ handleMessageCreate cfgBadDate procMsgId
        (scrapeHistorical parseFail cfgBadDate procChannelId initialState) (mh 1 0)
        = (initialState, false) := by
  refine ⟨by decide, by decide, by decide⟩

/-! ## C4 -/

/-- C4: the live monitor processes no incoming message while historical
scraping is enabled and not yet complete (`historicalScrapingComplete`
is set, at bot.js 344, exactly when the scraper has finished every
configured channel — third conjunct); with scraping disabled, every
incoming message is handed to the pipeline from the start. -/
theorem live_monitor_gating :
    ∀ (cfg : Config) (procMsg : BotState → Message → BotState) (st : BotState) (m : Message),
      (cfg.enableHistoricalScraping = true → st.historicalScrapingComplete = false →
        handleMessageCreate cfg procMsg st m = (st, false))
      ∧ (cfg.enableHistoricalScraping = false →
        handleMessageCreate cfg procMsg st m = (procMsg st m, true))
      ∧ (∀ (parse : String → Option Int) (procChannel : BotState → String → Int → BotState)
          (d : Int),
          cfg.enableHistoricalScraping = true →
          parseScrapingDate parse cfg.scrapeFromDate = some d →
          (channelList cfg).isEmpty = false →
          (scrapeHistorical parse cfg procChannel st).historicalScrapingComplete = true) := by
  intro cfg procMsg st m
  refine ⟨?_, ?_, ?_⟩
  · intro hen hcomp
    unfold handleMessageCreate
    rw [if_neg]
    simp [hen, hcomp]
  · intro hen
    unfold handleMessageCreate
    rw [if_pos]
    simp [hen]
  · intro parse procChannel d hen hd hch
    unfold scrapeHistorical
    rw [if_neg (by simp [hen]), hd]
    simp only [hch, if_neg (by decide : ¬(false = true))]

/-- Witness for `live_monitor_gating`: the gate blocks a message while
`cfgOk` scraping is incomplete, passes it through under `cfgOff`, and a
completed scrape under `cfgOk` sets the completion flag. -/
theorem live_monitor_gating_witness :
    handleMessageCreate cfgOk procMsgId initialState (mh 1 0) = (initialState, false)
    ∧ handleMessageCreate cfgOff procMsgId initialState (mh 1 0)
        = (procMsgId initialState (mh 1 0), true)
    ∧ (scrapeHistorical (fun _ => some 17) cfgOk procChannelId
        initialState).historicalScrapingComplete = true :=
  ⟨(live_monitor_gating cfgOk procMsgId initialState (mh 1 0)).1 rfl rfl,
   (live_monitor_gating cfgOff procMsgId initialState (mh 1 0)).2.1 rfl,
   (live_monitor_gating cfgOk procMsgId initialState (mh 1 0)).2.2
     (fun _ => some 17) procChannelId 17 rfl rfl (by decide)⟩

/-! ## C8 -/

/-- C8 counterexample: `"https://x.com/about.co"` is not a `t.co`
shortener link, yet `expandShortUrl` dereferences it (the guard
`url.includes('t.co')`, bot.js 123, is a substring test and
`"about.co"` contains `"t.co"`): with a network oracle redirecting it,
the result is a network call and a changed URL, contradicting "returns
it unchanged and performs no network call". -/
theorem resolve_not_identity_on_substring_match :
    isTcoShortenerLink "https://x.com/about.co" = false
    ∧ expandShortUrl (fun _ => some "https://e.org/f") "https://x.com/about.co"
        = ("https://e.org/f", true)
    ∧ ("https://e.org/f" : String) ≠ "https://x.com/about.co" := by
  refine ⟨by decide, by decide, by decide⟩

/-- C8 (amended): `expandShortUrl` is identity and performs no network
call on every URL that does not contain the substring `"t.co"`; the
guard is a substring test, so some non-shortener URLs containing
`"t.co"` are dereferenced. -/
theorem resolve_identity_without_tco_substring :
    ∀ (net : String → Option String) (url : String),
      containsStr "t.co" url = false → expandShortUrl net url = (url, false) := by
  intro net url h
  unfold expandShortUrl
  rw [if_neg (by simp [h])]

/-- Witness for `resolve_identity_without_tco_substring` at a concrete
canonical status URL and an oracle that would redirect anything. -/
theorem resolve_identity_without_tco_substring_witness :
    expandShortUrl (fun _ => some "https://e.org/f") "https://x.com/foo/status/555"
      = ("https://x.com/foo/status/555", false) :=
  resolve_identity_without_tco_substring (fun _ => some "https://e.org/f")
    "https://x.com/foo/status/555" (by decide)

/-! ## C10 -/

/-- C10: degraded-mode upsert is insert-only — when the record's
`(messageId, url)` key is already present, the store is left entirely
unchanged — and degraded-mode records never carry a `createdAt`:
`processMessage` builds records without one, and every record in a
store accumulated from such records is `createdAt`-free. -/
theorem testmode_insert_only :
    (∀ (s : List LinkData) (r : LinkData),
      s.any (fun l => sameKey l r) = true → testModeUpsert s r = s)
    ∧ (∀ (msg : Message) (link expandedUrl : String) (now : Int),
      (buildLinkData msg link expandedUrl now).createdAt = none)
    ∧ (∀ rs : List LinkData, (∀ x ∈ rs, x.createdAt = none) →
      ∀ x ∈ testModeFold [] rs, x.createdAt = none) := by
  refine ⟨?_, ?_, ?_⟩
  · intro s r h
    unfold testModeUpsert
    rw [if_pos h]
  · intro msg link expandedUrl now
    rfl
  · intro rs h x hx
    exact testModeFold_createdAt_none rs [] (by simp) h x hx

/-- Witness for `testmode_insert_only`: re-saving `recB`'s key with a
later `foundAt` leaves the store unchanged, and the accumulated store
from `recB, recD1` has no `createdAt` anywhere. -/
theorem testmode_insert_only_witness :
    testModeUpsert [recB] recB2 = [recB]
    ∧ (buildLinkData msgA "a" "b" 3).createdAt = none
    ∧ ∀ x ∈ testModeFold [] [recB, recD1], x.createdAt = none :=
  ⟨testmode_insert_only.1 [recB] recB2 (by decide),
   testmode_insert_only.2.1 msgA "a" "b" 3,
   testmode_insert_only.2.2 [recB, recD1] (by decide)⟩

end ContentScrape

namespace ContentScrape

/-! ## C6 -/

/-- Stores evolve in lock-step while no record collides with an earlier
one on `messageId`, `url`, or the composite key: both writes are pure
appends, and the persistent append differs only in stamping
`createdAt`. -/
theorem folds_agree_aux :
    ∀ (pairs : List (LinkData × Int)) (accM accT : List LinkData),
      stripCreated accM = accT →
      (accT ++ pairs.map Prod.fst).Pairwise (fun a b => a.messageId ≠ b.messageId) →
      (accT ++ pairs.map Prod.fst).Pairwise (fun a b => a.url ≠ b.url) →
      (∀ r ∈ pairs.map Prod.fst, r.createdAt = none) →
      stripCreated (mongoFold accM pairs) = testModeFold accT (pairs.map Prod.fst)
      ∧ testModeFold accT (pairs.map Prod.fst) = accT ++ pairs.map Prod.fst := by
  intro pairs
  induction pairs with
  | nil =>
    intro accM accT hstrip _ _ _
    exact ⟨by simpa [mongoFold, testModeFold] using hstrip, by simp [testModeFold]⟩
  | cons p rest ih =>
    intro accM accT hstrip hmsg hurl hnone
    obtain ⟨r, t⟩ := p
    have hrmap : ((r, t) :: rest).map Prod.fst = r :: rest.map Prod.fst := by simp
    have hrnone : r.createdAt = none := hnone r (by simp)
    have hmsgT : ∀ a ∈ accT, a.messageId ≠ r.messageId := by
      intro a ha
      exact (List.pairwise_append.mp hmsg).2.2 a ha r (by simp)
    have hurlT : ∀ a ∈ accT, a.url ≠ r.url := by
      intro a ha
      exact (List.pairwise_append.mp hurl).2.2 a ha r (by simp)
    have hmsgM : ∀ d ∈ accM, d.messageId ≠ r.messageId := by
      intro d hd
      have hmem : ({ d with createdAt := none } : LinkData) ∈ accT := by
        rw [← hstrip]
        exact List.mem_map_of_mem _ hd
      exact hmsgT { d with createdAt := none } hmem
    have hurlM : ∀ d ∈ accM, d.url ≠ r.url := by
      intro d hd
      have hmem : ({ d with createdAt := none } : LinkData) ∈ accT := by
        rw [← hstrip]
        exact List.mem_map_of_mem _ hd
      exact hurlT { d with createdAt := none } hmem
    have hanyKeyM : accM.any (fun d => sameKey d r) = false := by
      rw [Bool.eq_false_iff]
      intro hcon
      rw [List.any_eq_true] at hcon
      obtain ⟨d, hd, hkd⟩ := hcon
      simp only [sameKey, Bool.and_eq_true, decide_eq_true_eq] at hkd
      exact hmsgM d hd hkd.1
    have hanyUrlM : accM.any (fun d => d.url = r.url) = false := by
      rw [Bool.eq_false_iff]
      intro hcon
      rw [List.any_eq_true] at hcon
      obtain ⟨d, hd, hkd⟩ := hcon
      simp only [decide_eq_true_eq] at hkd
      exact hurlM d hd hkd
    have hanyMsgM : accM.any (fun d => d.messageId = r.messageId) = false := by
      rw [Bool.eq_false_iff]
      intro hcon
      rw [List.any_eq_true] at hcon
      obtain ⟨d, hd, hkd⟩ := hcon
      simp only [decide_eq_true_eq] at hkd
      exact hmsgM d hd hkd
    have hanyKeyT : accT.any (fun l => sameKey l r) = false := by
      rw [Bool.eq_false_iff]
      intro hcon
      rw [List.any_eq_true] at hcon
      obtain ⟨d, hd, hkd⟩ := hcon
      simp only [sameKey, Bool.and_eq_true, decide_eq_true_eq] at hkd
      exact hmsgT d hd hkd.1
    have hMongoStep : mongoUpsert accM r t = accM ++ [{ r with createdAt := some t }] := by
      unfold mongoUpsert
      rw [if_neg (by simp [hanyKeyM]), if_neg (by simp [hanyUrlM, hanyMsgM])]
    have hTestStep : testModeUpsert accT r = accT ++ [r] := by
      unfold testModeUpsert
      rw [if_neg (by simp [hanyKeyT])]
    have hstrip2 : stripCreated (accM ++ [{ r with createdAt := some t }]) = accT ++ [r] := by
      unfold stripCreated at hstrip ⊢
      rw [List.map_append, hstrip]
      simp [setCreatedNone_eq_self hrnone]
    have hre : accT ++ ((r, t) :: rest).map Prod.fst = (accT ++ [r]) ++ rest.map Prod.fst := by
      rw [hrmap, List.append_assoc, List.singleton_append]
    have ihres := ih (accM ++ [{ r with createdAt := some t }]) (accT ++ [r]) hstrip2
      (by rw [← hre]; exact hmsg) (by rw [← hre]; exact hurl)
      (fun x hx => hnone x (by rw [hrmap]; exact List.mem_cons_of_mem _ hx))
    constructor
    · rw [hrmap]
      show stripCreated (mongoFold (mongoUpsert accM r t) rest)
          = testModeFold (testModeUpsert accT r) (rest.map Prod.fst)
      rw [hMongoStep, hTestStep]
      exact ihres.1
    · rw [hrmap]
      show testModeFold (testModeUpsert accT r) (rest.map Prod.fst)
          = accT ++ r :: rest.map Prod.fst
      rw [hTestStep, ihres.2, List.append_assoc, List.singleton_append]

/-- C6 counterexample: the upsert sequence `recB` then `recB2` (same
`(messageId, url)` key, later `foundAt`) leaves the two stores with
different read results even after forgetting `createdAt`: the
persistent store holds `foundAt = 9` (fields refreshed), the degraded
store `foundAt = 7` (insert-only). -/
theorem stores_diverge_on_resave :
    stripCreated (mongoFold [] [(recB, 1), (recB2, 2)]) ≠ testModeFold [] [recB, recB2]
    ∧ (mongoFold [] [(recB, 1), (recB2, 2)]).map LinkData.foundAt = [9]
    ∧ (testModeFold [] [recB, recB2]).map LinkData.foundAt = [7] := by
  refine ⟨by decide, by decide, by decide⟩

/-- C6 (amended): for upsert sequences whose records carry pairwise
distinct `messageId`s and pairwise distinct `url`s (so neither the
composite key nor the single-field unique indexes ever fire), the
degraded and persistent stores expose identical records in identical
order, up to the persistent store's additional `createdAt` field; when
a key is re-saved the stores diverge (degraded keeps the first write's
fields, persistent the last write's — see the counterexample). -/
theorem stores_agree_without_collisions :
    ∀ (pairs : List (LinkData × Int)),
      (pairs.map Prod.fst).Pairwise (fun a b => a.messageId ≠ b.messageId) →
      (pairs.map Prod.fst).Pairwise (fun a b => a.url ≠ b.url) →
      (∀ r ∈ pairs.map Prod.fst, r.createdAt = none) →
      stripCreated (mongoFold [] pairs) = testModeFold [] (pairs.map Prod.fst) := by
  intro pairs h1 h2 h3
  exact (folds_agree_aux pairs [] [] rfl (by simpa using h1) (by simpa using h2) h3).1

/-- Witness for `stores_agree_without_collisions` on two collision-free
records. -/
theorem stores_agree_without_collisions_witness :
    stripCreated (mongoFold [] [(recD1, 70), (recD2, 71)])
      = testModeFold [] [recD1, recD2] := by
  have h := stores_agree_without_collisions [(recD1, 70), (recD2, 71)]
    (by decide) (by decide) (by decide)
  simpa using h

end ContentScrape

namespace ContentScrape

/-! ## Scanner lemmas (towards C7) -/

/-- A successful case-sensitive eat consumed exactly the literal. -/
theorem eatCS_eq_some :
    ∀ (lit cs m r : List Char), eatCS lit cs = some (m, r) → m = lit ∧ cs = lit ++ r := by
  intro lit
  induction lit with
  | nil =>
    intro cs m r h
    simp only [eatCS, Option.some.injEq, Prod.mk.injEq] at h
    exact ⟨h.1.symm, by rw [List.nil_append, h.2]⟩
  | cons l ls ih =>
    intro cs m r h
    cases cs with
    | nil => simp [eatCS] at h
    | cons c cs2 =>
      simp only [eatCS] at h
      by_cases hc : c = l
      · rw [if_pos hc] at h
        cases h2 : eatCS ls cs2 with
        | none => rw [h2] at h; simp at h
        | some pr =>
          obtain ⟨m2, r2⟩ := pr
          rw [h2] at h
          simp only [Option.some.injEq, Prod.mk.injEq] at h
          obtain ⟨hm2, hcs2⟩ := ih cs2 m2 r2 h2
          subst hc
          refine ⟨?_, ?_⟩
          · rw [← h.1, hm2]
          · rw [hcs2, h.2]; rfl
      · rw [if_neg hc] at h
        simp at h

/-- Eating a literal off itself-plus-rest succeeds. -/
theorem eatCS_self : ∀ (lit r : List Char), eatCS lit (lit ++ r) = some (lit, r) := by
  intro lit
  induction lit with
  | nil => intro r; rfl
  | cons l ls ih => intro r; simp [eatCS, ih r]

/-- Every element kept by `takeWhile` satisfies the predicate. -/
theorem takeWhile_all_sat {α : Type} {p : α → Bool} :
    ∀ l : List α, (l.takeWhile p).all p = true := by
  intro l
  induction l with
  | nil => rfl
  | cons x xs ih =>
    by_cases hp : p x
    · simp [List.takeWhile_cons, hp, ih]
    · simp [List.takeWhile_cons, hp]

/-- `takeWhile` over an append stops exactly at the first failing
character of the second part. -/
theorem takeWhile_append_sat {α : Type} {p : α → Bool} :
    ∀ (a b : List α), a.all p = true → (∀ c, b.head? = some c → p c = false) →
      (a ++ b).takeWhile p = a := by
  intro a
  induction a with
  | nil =>
    intro b _ hb
    cases b with
    | nil => rfl
    | cons c cs => simp [List.takeWhile_cons, hb c rfl]
  | cons x xs ih =>
    intro b ha hb
    simp only [List.all_cons, Bool.and_eq_true] at ha
    simp [List.takeWhile_cons, ha.1, ih b ha.2 hb]

/-- The character right after the maximal `takeWhile` run fails the
predicate. -/
theorem head_after_takeWhile {α : Type} {p : α → Bool} :
    ∀ (l : List α) (c : α),
      (l.drop (l.takeWhile p).length).head? = some c → p c = false := by
  intro l
  induction l with
  | nil => intro c h; simp at h
  | cons x xs ih =>
    intro c h
    by_cases hp : p x
    · rw [List.takeWhile_cons, if_pos hp] at h
      simp only [List.length_cons, List.drop_succ_cons] at h
      exact ih c h
    · rw [List.takeWhile_cons, if_neg hp] at h
      simp only [List.length_nil, List.drop_zero, List.head?_cons, Option.some.injEq] at h
      rw [← h]
      exact Bool.not_eq_true _ ▸ (by exact_mod_cast hp)

/-- A successful scheme match consumed `http://` or `https://`. -/
theorem matchSchemeCS_some :
    ∀ (cs m r : List Char), matchSchemeCS cs = some (m, r) →
      (m = "http://".toList ∨ m = "https://".toList) ∧ cs = m ++ r := by
  intro cs m r h
  unfold matchSchemeCS at h
  cases h1 : eatCS ("http".toList) cs with
  | none => rw [h1] at h; simp at h
  | some pr1 =>
    obtain ⟨m1, r1⟩ := pr1
    rw [h1] at h
    obtain ⟨hm1, hcs⟩ := eatCS_eq_some _ _ _ _ h1
    simp only [eatOptCS] at h
    cases h2 : eatCS ("s".toList) r1 with
    | none =>
      rw [h2] at h
      cases h3 : eatCS ("://".toList) r1 with
      | none => rw [h3] at h; simp at h
      | some pr3 =>
        obtain ⟨m3, r3⟩ := pr3
        rw [h3] at h
        simp only [Option.some.injEq, Prod.mk.injEq] at h
        obtain ⟨hm3, hr1⟩ := eatCS_eq_some _ _ _ _ h3
        refine ⟨Or.inl ?_, ?_⟩
        · rw [← h.1, hm1, hm3]; rfl
        · rw [← h.2, ← h.1, hcs, hr1, hm1, hm3]; rfl
    | some pr2 =>
      obtain ⟨m2, r2⟩ := pr2
      rw [h2] at h
      obtain ⟨hm2, hr1⟩ := eatCS_eq_some _ _ _ _ h2
      cases h3 : eatCS ("://".toList) r2 with
      | none => rw [h3] at h; simp at h
      | some pr3 =>
        obtain ⟨m3, r3⟩ := pr3
        rw [h3] at h
        simp only [Option.some.injEq, Prod.mk.injEq] at h
        obtain ⟨hm3, hr2⟩ := eatCS_eq_some _ _ _ _ h3
        refine ⟨Or.inr ?_, ?_⟩
        · rw [← h.1, hm1, hm2, hm3]; rfl
        · rw [← h.2, ← h.1, hcs, hr1, hr2, hm1, hm2, hm3]; rfl

/-- A successful host match consumed one of the four host literals. -/
theorem matchHostCS_some :
    ∀ (cs m r : List Char), matchHostCS cs = some (m, r) →
      (m = "twitter.com".toList ∨ m = "x.com".toList ∨
       m = "www.twitter.com".toList ∨ m = "www.x.com".toList) ∧ cs = m ++ r := by
  intro cs m r h
  unfold matchHostCS at h
  simp only [eatOptCS] at h
  cases h4 : eatCS ("www.".toList) cs with
  | none =>
    rw [h4] at h
    cases h5 : eatCS ("twitter.com".toList) cs with
    | some pr5 =>
      obtain ⟨m5, r5⟩ := pr5
      rw [h5] at h
      simp only [Option.some.injEq, Prod.mk.injEq] at h
      obtain ⟨hm5, hcs⟩ := eatCS_eq_some _ _ _ _ h5
      refine ⟨Or.inl ?_, ?_⟩
      · rw [← h.1, hm5]; rfl
      · rw [← h.2, ← h.1, hcs, hm5]; rfl
    | none =>
      rw [h5] at h
      cases h6 : eatCS ("x.com".toList) cs with
      | none => rw [h6] at h; simp at h
      | some pr6 =>
        obtain ⟨m6, r6⟩ := pr6
        rw [h6] at h
        simp only [Option.some.injEq, Prod.mk.injEq] at h
        obtain ⟨hm6, hcs⟩ := eatCS_eq_some _ _ _ _ h6
        refine ⟨Or.inr (Or.inl ?_), ?_⟩
        · rw [← h.1, hm6]; rfl
        · rw [← h.2, ← h.1, hcs, hm6]; rfl
  | some pr4 =>
    obtain ⟨m4, r4⟩ := pr4
    rw [h4] at h
    obtain ⟨hm4, hcs4⟩ := eatCS_eq_some _ _ _ _ h4
    cases h5 : eatCS ("twitter.com".toList) r4 with
    | some pr5 =>
      obtain ⟨m5, r5⟩ := pr5
      rw [h5] at h
      simp only [Option.some.injEq, Prod.mk.injEq] at h
      obtain ⟨hm5, hr4⟩ := eatCS_eq_some _ _ _ _ h5
      refine ⟨Or.inr (Or.inr (Or.inl ?_)), ?_⟩
      · rw [← h.1, hm4, hm5]; rfl
      · rw [← h.2, ← h.1, hcs4, hr4, hm4, hm5]; rfl
    | none =>
      rw [h5] at h
      cases h6 : eatCS ("x.com".toList) r4 with
      | none => rw [h6] at h; simp at h
      | some pr6 =>
        obtain ⟨m6, r6⟩ := pr6
        rw [h6] at h
        simp only [Option.some.injEq, Prod.mk.injEq] at h
        obtain ⟨hm6, hr4⟩ := eatCS_eq_some _ _ _ _ h6
        refine ⟨Or.inr (Or.inr (Or.inr ?_)), ?_⟩
        · rw [← h.1, hm4, hm6]; rfl
        · rw [← h.2, ← h.1, hcs4, hr4, hm4, hm6]; rfl

end ContentScrape

namespace ContentScrape

/-- `takeWhile` plus the remainder reassembles the list. -/
theorem takeWhile_append_drop {α : Type} {p : α → Bool} :
    ∀ l : List α, l.takeWhile p ++ l.drop (l.takeWhile p).length = l := by
  intro l
  induction l with
  | nil => rfl
  | cons x xs ih =>
    by_cases hp : p x
    · rw [List.takeWhile_cons, if_pos hp]
      simp only [List.length_cons, List.drop_succ_cons, List.cons_append]
      rw [ih]
    · rw [List.takeWhile_cons, if_neg hp]
      simp

/-- `takeWhile` is the identity on a list all of whose elements satisfy
the predicate. -/
theorem takeWhile_of_all {α : Type} {p : α → Bool} :
    ∀ l : List α, l.all p = true → l.takeWhile p = l := by
  intro l
  induction l with
  | nil => intro _; rfl
  | cons x xs ih =>
    intro h
    simp only [List.all_cons, Bool.and_eq_true] at h
    rw [List.takeWhile_cons, if_pos h.1, ih h.2]

/-- A successful status match decomposes the input as the match followed
by the rest, the match has the canonical `scheme://host/user/status/id`
shape, and the rest starts with a non-digit (the numeric id is kept
whole and everything from the first non-digit on is discarded). -/
theorem matchStatusAt_some :
    ∀ (cs m r : List Char), matchStatusAt cs = some (m, r) →
      cs = m ++ r ∧ canonicalStatusShape m = true
      ∧ ∀ c, r.head? = some c → isDigitChar c = false := by
  intro cs m r h
  unfold matchStatusAt at h
  split at h
  · exact Option.noConfusion h
  rename_i ms r1 h1
  split at h
  · exact Option.noConfusion h
  rename_i mho r2 h2
  split at h
  · exact Option.noConfusion h
  rename_i m6 r3 h3
  split at h
  · exact Option.noConfusion h
  rename_i hu
  split at h
  · exact Option.noConfusion h
  rename_i m8 r5 h4
  split at h
  · exact Option.noConfusion h
  rename_i hd
  simp only [Option.some.injEq, Prod.mk.injEq] at h
  obtain ⟨hm, hr⟩ := h
  obtain ⟨hms, hcs⟩ := matchSchemeCS_some _ _ _ h1
  obtain ⟨hmho, hr1⟩ := matchHostCS_some _ _ _ h2
  obtain ⟨hm6, hr2⟩ := eatCS_eq_some _ _ _ _ h3
  obtain ⟨hm8, hr3d⟩ := eatCS_eq_some _ _ _ _ h4
  have huser_all : (r3.takeWhile isWordChar).all isWordChar = true :=
    takeWhile_all_sat r3
  have hdig_all : (r5.takeWhile isDigitChar).all isDigitChar = true :=
    takeWhile_all_sat r5
  have hr3 : r3 = r3.takeWhile isWordChar ++ ("/status/".toList ++ r5) := by
    conv_lhs => rw [← takeWhile_append_drop (p := isWordChar) r3]
    rw [hr3d]
  have hr5 : r5 = r5.takeWhile isDigitChar ++ r5.drop (r5.takeWhile isDigitChar).length := by
    rw [takeWhile_append_drop]
  subst hm hr hm6 hm8
  refine ⟨?_, ?_, ?_⟩
  · rw [hcs, hr1, hr2]
    conv_lhs => rw [hr3]
    conv_lhs => rw [hr5]
    simp [List.append_assoc]
  · have hsh : ∃ sch ∈ ["http://", "https://"], sch.toList = ms := by
      rcases hms with h' | h'
      · exact ⟨"http://", by simp, h'.symm⟩
      · exact ⟨"https://", by simp, h'.symm⟩
    have hho : ∃ host ∈ ["twitter.com", "x.com", "www.twitter.com", "www.x.com"],
        host.toList = mho := by
      rcases hmho with h' | h' | h' | h'
      · exact ⟨"twitter.com", by simp, h'.symm⟩
      · exact ⟨"x.com", by simp, h'.symm⟩
      · exact ⟨"www.twitter.com", by simp, h'.symm⟩
      · exact ⟨"www.x.com", by simp, h'.symm⟩
    obtain ⟨sch, hschmem, hsch⟩ := hsh
    obtain ⟨host, hhomem, hho⟩ := hho
    unfold canonicalStatusShape
    rw [List.any_eq_true]
    refine ⟨sch, hschmem, ?_⟩
    rw [List.any_eq_true]
    refine ⟨host, hhomem, ?_⟩
    have hdecomp : ms ++ mho ++ "/".toList ++ r3.takeWhile isWordChar ++ "/status/".toList
        ++ r5.takeWhile isDigitChar
        = (sch.toList ++ host.toList ++ ['/'])
          ++ (r3.takeWhile isWordChar
              ++ ("/status/".toList ++ r5.takeWhile isDigitChar)) := by
      rw [hsch, hho]
      simp [List.append_assoc]
    rw [hdecomp, eatCS_self]
    have htw : (r3.takeWhile isWordChar
        ++ ("/status/".toList ++ r5.takeWhile isDigitChar)).takeWhile isWordChar
        = r3.takeWhile isWordChar := by
      refine takeWhile_append_sat _ _ huser_all ?_
      intro c hc
      simp only [List.head?_append, List.head?_cons] at hc
      have hcc : '/' = c := by simpa using hc
      rw [← hcc]; decide
    simp only [htw]
    rw [if_neg (by simpa using hu)]
    rw [List.drop_left]
    rw [eatCS_self]
    simp only [takeWhile_of_all _ hdig_all]
    rw [List.drop_length]
    simp only [List.isEmpty_nil, Bool.and_true]
    simpa using hd
  · intro c hc
    exact head_after_takeWhile r5 c hc

/-- Every output of the first-match status search has the canonical
status shape. -/
theorem searchStatus_shape :
    ∀ (u m : List Char), searchStatus u = some m → canonicalStatusShape m = true := by
  intro u
  induction u with
  | nil => intro m h; simp [searchStatus] at h
  | cons c cs ih =>
    intro m h
    unfold searchStatus at h
    cases h1 : matchStatusAt (c :: cs) with
    | some pr =>
      obtain ⟨mm, rr⟩ := pr
      rw [h1] at h
      simp only [Option.some.injEq] at h
      rw [← h]
      exact (matchStatusAt_some _ _ _ h1).2.1
    | none =>
      rw [h1] at h
      exact ih m h

end ContentScrape

namespace ContentScrape

/-! ## C7 -/

/-- C7: status URLs are normalised to exactly
`scheme://host/username/status/id`.  Concretely, the spec's scenario
text extracts to exactly the canonical singleton, and variants
differing only in the query string extract to the identical singleton;
in general every output of the status search has the canonical shape
(conjunct 4), and a status match splits the input into the canonical
match followed by a rest that starts with a non-digit — the numeric id
is kept whole and the query string or fragment after it is discarded
(conjunct 5). -/
theorem status_url_normalization :
    extractTwitterLinks "check this out https://x.com/foo/status/555?s=20 cool!"
        = ["https://x.com/foo/status/555"]
    ∧ extractTwitterLinks "https://x.com/foo/status/555?s=20"
        = ["https://x.com/foo/status/555"]
    ∧ extractTwitterLinks "https://x.com/foo/status/555?t=9&ref=xyz"
        = ["https://x.com/foo/status/555"]
    ∧ (∀ (u m : List Char), searchStatus u = some m → canonicalStatusShape m = true)
    ∧ (∀ (cs m r : List Char), matchStatusAt cs = some (m, r) →
        cs = m ++ r ∧ ∀ c, r.head? = some c → isDigitChar c = false) := by
  refine ⟨by decide, by decide, by decide, searchStatus_shape, ?_⟩
  intro cs m r h
  exact ⟨(matchStatusAt_some cs m r h).1, (matchStatusAt_some cs m r h).2.2⟩

/-- Witness for `status_url_normalization` at the scenario URL: the
status search output on the query-string variant is canonical. -/
theorem status_url_normalization_witness :
    canonicalStatusShape ("https://x.com/foo/status/555".toList) = true :=
  status_url_normalization.2.2.2.1 ("https://x.com/foo/status/555?s=20".toList)
    ("https://x.com/foo/status/555".toList) (by decide)

/-! ## C9 -/

/-- C9: a twitter/x URL whose cleaned form contains `/status/` but on
which the status regex fails contributes nothing to the result — the
`forEach` body (bot.js 96–104) adds no entry when `statusMatch` is
`null` — and concretely a hyphenated username or a non-numeric id makes
the whole extraction come back empty. -/
theorem malformed_status_url_omitted :
    (∀ (acc : List String) (link : List Char),
      containsChars ("/status/".toList) (cleanTrailing link) = true →
      searchStatus (cleanTrailing link) = none →
      processUrlMatch acc link = acc)
    ∧ extractTwitterLinks "https://x.com/foo-bar/status/123" = []
    ∧ extractTwitterLinks "https://x.com/foo/status/abc" = [] := by
  refine ⟨?_, by decide, by decide⟩
  intro acc link h1 h2
  unfold processUrlMatch
  rw [if_pos h1, h2]

/-- Witness for `malformed_status_url_omitted` at a hyphenated-username
status URL against a non-empty accumulator. -/
theorem malformed_status_url_omitted_witness :
    processUrlMatch ["kept"] ("https://x.com/foo-bar/status/123".toList) = ["kept"] :=
  malformed_status_url_omitted.1 ["kept"] ("https://x.com/foo-bar/status/123".toList)
    (by decide) (by decide)

end ContentScrape

namespace ContentScrape

/-! ## Traversal lemmas (towards C5) -/

/-- The page loop is `takeWhile` of the in-range predicate, and the
`hasMoreMessages` flag survives exactly when every message of the page
is in range. -/
theorem processPage_eq :
    ∀ (cutoff : Int) (l : List Message),
      processPage cutoff l
        = (l.takeWhile (fun m => !(decide (m.createdAt < cutoff))),
           l.all (fun m => !(decide (m.createdAt < cutoff)))) := by
  intro cutoff l
  induction l with
  | nil => rfl
  | cons m rest ih =>
    unfold processPage
    by_cases h : m.createdAt < cutoff
    · rw [if_pos h]
      rw [List.takeWhile_cons, List.all_cons]
      simp [h]
    · rw [if_neg h]
      rw [ih]
      rw [List.takeWhile_cons, List.all_cons]
      simp [h]

/-- In a list of strictly decreasing ids, the messages with id below a
given element's id are exactly the ones after it. -/
theorem filter_lt_of_split :
    ∀ (pre post : List Message) (x : Message),
      (pre ++ x :: post).Pairwise (fun a b => b.id < a.id) →
      (pre ++ x :: post).filter (fun m => m.id < x.id) = post := by
  intro pre post x hpw
  rw [List.filter_append]
  have hcross := (List.pairwise_append.mp hpw).2.2
  have hx := (List.pairwise_append.mp hpw).2.1
  have hpre : pre.filter (fun m => m.id < x.id) = [] := by
    rw [List.filter_eq_nil_iff]
    intro a ha
    have : x.id < a.id := hcross a ha x (List.mem_cons_self _ _)
    simp only [decide_eq_true_eq]
    omega
  have hpost : (x :: post).filter (fun m => m.id < x.id) = post := by
    rw [List.filter_cons]
    rw [if_neg (by simp)]
    rw [List.filter_eq_self.mpr]
    intro a ha
    have : a.id < x.id := (List.pairwise_cons.mp hx).1 a ha
    simp only [decide_eq_true_eq]
    exact this
  rw [hpre, hpost, List.nil_append]

/-- When every element of the first `n` satisfies the predicate,
`takeWhile` decomposes along `take`/`drop` at `n`. -/
theorem takeWhile_take_all {α : Type} {p : α → Bool} :
    ∀ (n : Nat) (l : List α), (l.take n).all p = true →
      l.takeWhile p = l.take n ++ (l.drop n).takeWhile p := by
  intro n
  induction n with
  | zero => intro l _; simp
  | succ n ih =>
    intro l h
    cases l with
    | nil => simp
    | cons x xs =>
      simp only [List.take_succ_cons, List.all_cons, Bool.and_eq_true] at h
      rw [List.takeWhile_cons, if_pos h.1, List.take_succ_cons, List.drop_succ_cons,
        List.cons_append, ih xs h.2]

/-- When some element of the first `n` fails the predicate, `takeWhile`
never reaches past the first `n`. -/
theorem takeWhile_take_stop {α : Type} {p : α → Bool} :
    ∀ (n : Nat) (l : List α), (l.take n).all p = false →
      l.takeWhile p = (l.take n).takeWhile p := by
  intro n
  induction n with
  | zero => intro l h; simp at h
  | succ n ih =>
    intro l h
    cases l with
    | nil => simp at h
    | cons x xs =>
      simp only [List.take_succ_cons, List.all_cons, Bool.and_eq_false_iff] at h
      rw [List.take_succ_cons, List.takeWhile_cons, List.takeWhile_cons]
      rcases h with h | h
      · rw [if_neg (by simp [h]), if_neg (by simp [h])]
      · by_cases hx : p x
        · rw [if_pos hx, if_pos hx, ih xs h]
        · rw [if_neg hx, if_neg hx]

/-- The channel loop with sufficient fuel processes exactly the maximal
in-range prefix of the remaining messages, for any cursor position. -/
theorem scrapeGo_eq :
    ∀ (msgs : List Message) (cutoff : Int) (batch : Nat), 1 ≤ batch →
      msgs.Pairwise (fun a b => b.id < a.id) →
      ∀ (fuel : Nat) (cursor : Option Nat) (pre rest : List Message),
        msgs = pre ++ rest →
        (match cursor with
         | none => msgs
         | some c => msgs.filter (fun m => m.id < c)) = rest →
        rest.length + 1 ≤ fuel →
        scrapeGo msgs cutoff batch fuel cursor
          = rest.takeWhile (fun m => !(decide (m.createdAt < cutoff))) := by
  intro msgs cutoff batch hb hpw fuel
  induction fuel with
  | zero => intro cursor pre rest hsplit hcur hfuel; omega
  | succ fuel ih =>
    intro cursor pre rest hsplit hcur hfuel
    have hpage : fetchPage msgs cursor batch = rest.take batch := by
      unfold fetchPage
      rw [hcur]
    cases hrest : rest with
    | nil =>
      subst hrest
      simp only [scrapeGo, hpage]
      simp
    | cons x xs =>
      subst hrest
      have hne : ((x :: xs).take batch).isEmpty = false := by
        cases batch with
        | zero => omega
        | succ b => simp
      simp only [scrapeGo, hpage, hne, Bool.false_eq_true, if_false, processPage_eq]
      by_cases hall : ((x :: xs).take batch).all (fun m => !(decide (m.createdAt < cutoff))) = true
      · rw [hall]
        have htw : ((x :: xs).take batch).takeWhile (fun m => !(decide (m.createdAt < cutoff)))
            = (x :: xs).take batch := takeWhile_of_all _ hall
        simp only [htw]
        rw [if_neg (by simp)]
        have hpagene : (x :: xs).take batch ≠ [] := by
          intro hcon
          rw [hcon] at hne
          simp at hne
        rw [if_neg (by simpa [List.isEmpty_iff] using hpagene)]
        rw [List.getLast?_eq_getLast _ hpagene]
        set last := ((x :: xs).take batch).getLast hpagene with hlast
        have hdecomp : (x :: xs).take batch
            = ((x :: xs).take batch).dropLast ++ [last] :=
          (List.dropLast_append_getLast hpagene).symm
        have hmsgs2 : msgs = (pre ++ ((x :: xs).take batch).dropLast)
            ++ last :: (x :: xs).drop batch := by
          rw [hsplit]
          conv_lhs => rw [← List.take_append_drop batch (x :: xs)]
          rw [hdecomp]
          simp [List.append_assoc]
        have hcur2 : msgs.filter (fun m => m.id < last.id) = (x :: xs).drop batch := by
          rw [hmsgs2] at hpw ⊢
          exact filter_lt_of_split _ _ _ hpw
        have hfuel2 : ((x :: xs).drop batch).length + 1 ≤ fuel := by
          have h1 : ((x :: xs).drop batch).length = (x :: xs).length - batch := by
            simp
          have h2 : (x :: xs).length = xs.length + 1 := by simp
          omega
        have hsplit2 : msgs = (pre ++ (x :: xs).take batch) ++ (x :: xs).drop batch := by
          rw [hsplit]
          conv_lhs => rw [← List.take_append_drop batch (x :: xs)]
          simp [List.append_assoc]
        show (x :: xs).take batch ++ scrapeGo msgs cutoff batch fuel (some last.id) = _
        rw [ih (some last.id) (pre ++ (x :: xs).take batch)
          ((x :: xs).drop batch) hsplit2 hcur2 hfuel2]
        rw [← takeWhile_take_all batch (x :: xs) hall]
      · rw [Bool.not_eq_true] at hall
        rw [hall]
        rw [if_pos rfl]
        exact (takeWhile_take_stop batch (x :: xs) hall).symm

end ContentScrape

namespace ContentScrape

/-- With non-increasing timestamps (newest first), every in-range member
of the history is inside the maximal in-range prefix. -/
theorem mem_takeWhile_sorted_ts :
    ∀ (msgs : List Message) (cutoff : Int) (m : Message),
      msgs.Pairwise (fun a b => b.createdAt ≤ a.createdAt) →
      m ∈ msgs → cutoff ≤ m.createdAt →
      m ∈ msgs.takeWhile (fun m => !(decide (m.createdAt < cutoff))) := by
  intro msgs cutoff m
  induction msgs with
  | nil => intro _ hm _; simp at hm
  | cons x xs ih =>
    intro hpw hm hc
    have hpx : (!(decide (x.createdAt < cutoff))) = true := by
      rcases List.mem_cons.mp hm with h | h
      · subst h; simp; omega
      · have := (List.pairwise_cons.mp hpw).1 m h
        simp
        omega
    rw [List.takeWhile_cons, if_pos hpx]
    rcases List.mem_cons.mp hm with h | h
    · subst h; exact List.mem_cons_self _ _
    · exact List.mem_cons_of_mem _ (ih (List.pairwise_cons.mp hpw).2 h hc)

/-! ## C5 -/

/-- C5: for a channel history delivered newest-first (strictly
decreasing snowflake ids, non-increasing creation times) and any batch
size ≥ 1 and sufficient loop fuel, the traversal processes exactly the
maximal prefix of messages at or after the cutoff: no message strictly
older than the cutoff is ever processed (the loop halts the channel at
the first such message, bot.js 287–291), and every message at or after
the cutoff is processed exactly once. -/
theorem historical_scrape_cutoff :
    ∀ (msgs : List Message) (cutoff : Int) (batch fuel : Nat),
      1 ≤ batch → msgs.length + 1 ≤ fuel →
      msgs.Pairwise (fun a b => b.id < a.id) →
      msgs.Pairwise (fun a b => b.createdAt ≤ a.createdAt) →
      scrapeChannel msgs cutoff batch fuel
          = msgs.takeWhile (fun m => !(decide (m.createdAt < cutoff)))
      ∧ (∀ m ∈ scrapeChannel msgs cutoff batch fuel, ¬(m.createdAt < cutoff))
      ∧ (∀ m ∈ msgs, cutoff ≤ m.createdAt →
          (scrapeChannel msgs cutoff batch fuel).count m = 1) := by
  intro msgs cutoff batch fuel hb hfuel hid hts
  have heq : scrapeChannel msgs cutoff batch fuel
      = msgs.takeWhile (fun m => !(decide (m.createdAt < cutoff))) :=
    scrapeGo_eq msgs cutoff batch hb hid fuel none [] msgs (by simp) rfl hfuel
  refine ⟨heq, ?_, ?_⟩
  · intro m hm
    rw [heq] at hm
    have hall := takeWhile_all_sat (p := fun m => !(decide (m.createdAt < cutoff))) msgs
    have := List.all_eq_true.mp hall m hm
    simpa using this
  · intro m hmem hc
    rw [heq]
    have hnd : msgs.Nodup := by
      refine List.Pairwise.imp ?_ hid
      intro a b hlt hab
      rw [hab] at hlt
      omega
    have hnd2 : (msgs.takeWhile (fun m => !(decide (m.createdAt < cutoff)))).Nodup :=
      (List.takeWhile_sublist _).nodup hnd
    have hmm := mem_takeWhile_sorted_ts msgs cutoff m hts hmem hc
    exact List.count_eq_one_of_mem hnd2 hmm

/-- Witness for `historical_scrape_cutoff` on the spec's boundary
scenario extended over two pages (batch 2): the two in-range messages
are processed exactly once each, the two older ones never. -/
theorem historical_scrape_cutoff_witness :
    scrapeChannel [mh 10 5, mh 9 3, mh 8 (-1), mh 7 (-2)] 0 2 6
        = [mh 10 5, mh 9 3, mh 8 (-1), mh 7 (-2)].takeWhile
            (fun m => !(decide (m.createdAt < 0)))
    ∧ (∀ m ∈ scrapeChannel [mh 10 5, mh 9 3, mh 8 (-1), mh 7 (-2)] 0 2 6,
        ¬(m.createdAt < 0))
    ∧ (∀ m ∈ [mh 10 5, mh 9 3, mh 8 (-1), mh 7 (-2)], 0 ≤ m.createdAt →
        (scrapeChannel [mh 10 5, mh 9 3, mh 8 (-1), mh 7 (-2)] 0 2 6).count m = 1) :=
  historical_scrape_cutoff [mh 10 5, mh 9 3, mh 8 (-1), mh 7 (-2)] 0 2 6
    (by decide) (by decide) (by decide) (by decide)

end ContentScrape
